import Mathlib

/-!
Chained hash table (`full_hashtable/hashtables.c`).

A shallow embedding of the C hash table and the properties checked against it.

Representation.
* A C string is the list of its bytes before the terminating NUL, each byte
  read as an `unsigned char` (so a well-formed string holds values `1..255`).
  `strcmp(a, b) == 0` is equality of these lists, `strdup` is the identity.
* A `LinkedPair *` is the list of the pairs reachable through `next`:
  `NULL` is `[]`, and a pointer to a pair `p` is `p :: rest` where `rest` is
  `p->next`.  Pairs are only ever made by `create_pair` (a fresh `malloc`)
  and never shared between chains, so the list is the whole reachable state.
* `ht->storage` is the list of the bucket chains, `ht->capacity` a
  non-negative `int`.
* Code whose behaviour is undefined in C (reading a pair after
  `destroy_pair`, signed overflow of `capacity * 2`) returns `none`.
-/

namespace HashTables

/-- The bytes of a NUL-terminated string, terminator excluded. -/
abbrev CString := List Nat

/-- The `key` and `value` fields of `struct LinkedPair`; the `next` field is
the tail of the chain the pair heads. -/
structure LinkedPair where
  key : CString
  value : CString
deriving DecidableEq

/-- A `LinkedPair *`: the pairs reachable through `next`, `NULL` being `[]`. -/
abbrev Chain := List LinkedPair

/-- The `struct HashTable`: `capacity` and the `storage` array of chains. -/
structure HashTable where
  capacity : Nat
  storage : List Chain
deriving DecidableEq

/-- The function `create_pair`: a pair with copies of the key and the value; its
`next` is `NULL`, so as a chain it is the one-element list. -/
def create_pair (key value : CString) : LinkedPair :=
  { key := key, value := value }

/-- The width of `unsigned long`. -/
def ULONG_BITS : Nat := 64

/-- The width of `unsigned int` and of `int`. -/
def UINT_BITS : Nat := 32

/-- The largest `int`. -/
def INT_MAX : Nat := 2 ^ 31 - 1

/-- The loop `while ((c = *u_str++)) hash = ((hash << 5) + hash) + c;` of
`hash`, on `unsigned long`: it stops at the first zero byte (the end of the
list is the terminator), and every operation wraps modulo `2 ^ 64`. -/
def hash_loop : Nat → CString → Nat
  | h, [] => h
  | h, c :: rest =>
    if c = 0 then h
    else hash_loop ((((h <<< 5) % 2 ^ ULONG_BITS + h) % 2 ^ ULONG_BITS + c) % 2 ^ ULONG_BITS) rest

/-- The function `hash`: djb2 of the string, `% max` on `unsigned long` (for a
non-negative `int max` the conversion keeps its value), then narrowed to the
`unsigned int` return type.  `max = 0` is a division by zero in C; every
statement below assumes `0 < max`. -/
def hash (str : CString) (max : Nat) : Nat :=
  (hash_loop 5381 str % max) % 2 ^ UINT_BITS

/-- The conversion of the `unsigned int` result of `hash` to `int index`. -/
def to_int_index (u : Nat) : Int :=
  if u ≤ INT_MAX then (u : Int) else (u : Int) - 2 ^ UINT_BITS

/-- The function `create_hash_table`: `capacity` slots, all `NULL` (`calloc`). -/
def create_hash_table (capacity : Nat) : HashTable :=
  { capacity := capacity, storage := List.replicate capacity [] }

/-- The read `ht->storage[index]`. -/
def bucket (ht : HashTable) (index : Nat) : Chain :=
  ht.storage.getD index []

/-- The write `ht->storage[index] = chain`. -/
def set_bucket (ht : HashTable) (index : Nat) (chain : Chain) : HashTable :=
  { ht with storage := ht.storage.set index chain }

/-- The function `hash_table_insert`: an empty bucket gets the new pair; a head
with the same key is replaced by the new pair (whose `next` is `NULL`); otherwise
the new pair is stored in the head's `next`, whatever that held. -/
def hash_table_insert (ht : HashTable) (key value : CString) : HashTable :=
  let new_pair := create_pair key value
  let index := hash key ht.capacity
  match bucket ht index with
  | [] => set_bucket ht index [new_pair]
  | head :: _ =>
    if head.key = key then set_bucket ht index [new_pair]
    else set_bucket ht index [head, new_pair]

/-- The loop of `hash_table_retrieve` from `current_pair` on. -/
def retrieve_loop (key : CString) : Chain → Option CString
  | [] => none
  | current_pair :: next =>
    if current_pair.key = key then some current_pair.value
    else retrieve_loop key next

/-- The function `hash_table_retrieve`; `none` is the `NULL` result. -/
def hash_table_retrieve (ht : HashTable) (key : CString) : Option CString :=
  retrieve_loop key (bucket ht (hash key ht.capacity))

/-- The loop of `hash_table_remove`.  `before` is the chain from the bucket head
up to `old_pair` (empty when `old_pair` is `NULL`), the flag says whether
`current_pair` points to a pair already given to `destroy_pair`, and the last
argument is the chain that follows `before` in the bucket (when the flag is
off, `current_pair` is its head).

On a match the pair is unlinked and destroyed and `current_pair` is left as
it is; the next iteration passes the `!= NULL` test and reads
`current_pair->key` of the destroyed pair, which is undefined: `none`.
Otherwise the walk steps to `current_pair->next`.  At `NULL` the bucket holds
`before`. -/
def remove_loop (key : CString) : Chain → Bool → Chain → Option Chain
  | _, true, _ => none
  | before, false, [] => some before
  | before, false, current_pair :: next =>
    if current_pair.key = key then remove_loop key before true next
    else remove_loop key (before ++ [current_pair]) false next

/-- The function `hash_table_remove`; `none` when the walk reads a destroyed pair. -/
def hash_table_remove (ht : HashTable) (key : CString) : Option HashTable :=
  let index := hash key ht.capacity
  (remove_loop key [] false (bucket ht index)).map (fun chain => set_bucket ht index chain)

/-- The inner `while` of `hash_table_resize`: every pair of one chain, head
first, is inserted into the new table. -/
def resize_chain (new_ht : HashTable) (chain : Chain) : HashTable :=
  chain.foldl (fun t current_pair => hash_table_insert t current_pair.key current_pair.value) new_ht

/-- The function `hash_table_resize`: a new table of capacity `capacity * 2`
(undefined when the product overflows `int`: `none`) receives the pairs of
buckets `0 .. capacity - 1` in order; the old table is destroyed. -/
def hash_table_resize (ht : HashTable) : Option HashTable :=
  if ht.capacity * 2 ≤ INT_MAX then
    some ((List.range ht.capacity).foldl
      (fun new_ht i => resize_chain new_ht (bucket ht i))
      (create_hash_table (ht.capacity * 2)))
  else none

/-- A call of one of the three operations that change a table. -/
inductive Op where
  | insert (key value : CString)
  | remove (key : CString)
  | resize
deriving DecidableEq

/-- One call; `none` when the call has undefined behaviour. -/
def apply_op (ht : HashTable) : Op → Option HashTable
  | Op.insert key value => some (hash_table_insert ht key value)
  | Op.remove key => hash_table_remove ht key
  | Op.resize => hash_table_resize ht

/-- A sequence of calls, first to last. -/
def run_ops : HashTable → List Op → Option HashTable
  | ht, [] => some ht
  | ht, op :: rest =>
    match apply_op ht op with
    | none => none
    | some ht' => run_ops ht' rest

/-- The array invariant of `struct HashTable`: `storage` has `capacity` slots. -/
def well_formed (ht : HashTable) : Prop :=
  ht.storage.length = ht.capacity

instance (ht : HashTable) : Decidable (well_formed ht) := by
  unfold well_formed; infer_instance

/-- The string `"line_1"`. -/
def line_1 : CString := [108, 105, 110, 101, 95, 49]

/-- The string `"line-1"`. -/
def line_dash_1 : CString := [108, 105, 110, 101, 45, 49]

/-- The string `"Tiny hash table\n"`. -/
def tiny_hash_table : CString :=
  [84, 105, 110, 121, 32, 104, 97, 115, 104, 32, 116, 97, 98, 108, 101, 10]

/-- The table of `main` before its `hash_table_resize`. -/
def demo_table : HashTable :=
  hash_table_insert (create_hash_table 2) line_1 tiny_hash_table

/-- The table `main` gets back from `hash_table_resize`. -/
def demo_resized : HashTable :=
  { capacity := 4, storage := [[], [create_pair line_1 tiny_hash_table], [], []] }

/-- The string `"a"`. -/
def str_a : CString := [97]

/-- The string `"b"`. -/
def str_b : CString := [98]

/-- The string `"c"`. -/
def str_c : CString := [99]

/-- The string `"x"`. -/
def str_x : CString := [120]

/-- The string `"y"`. -/
def str_y : CString := [121]

/-- The string `"z"`. -/
def str_z : CString := [122]

/-- A table of capacity 1 whose only pair has key `"a"`. -/
def table_a : HashTable :=
  hash_table_insert (create_hash_table 1) str_a str_x

/-- A table of capacity 1 whose bucket chains `"a"` and `"b"`. -/
def table_ab : HashTable :=
  hash_table_insert table_a str_b str_y

/-- No pair of the table has key `k`. -/
def key_absent (ht : HashTable) (k : CString) : Prop :=
  ∀ chain ∈ ht.storage, ∀ p ∈ chain, p.key ≠ k

instance (ht : HashTable) (k : CString) : Decidable (key_absent ht k) := by
  unfold key_absent; infer_instance

/-- Bucket placement: every pair in the chain of bucket `i` hashes to `i`. -/
def placed (ht : HashTable) : Prop :=
  ∀ i, i < ht.capacity → ∀ p ∈ bucket ht i, hash p.key ht.capacity = i

instance (ht : HashTable) : Decidable (placed ht) := by
  unfold placed; infer_instance

/-- Key uniqueness: no chain holds two pairs with the same key. -/
def unique_keys (ht : HashTable) : Prop :=
  ∀ i, i < ht.capacity → (bucket ht i).Pairwise (fun p q => p.key ≠ q.key)

/-- Every bucket holds at most one pair. -/
def no_collision (ht : HashTable) : Prop :=
  ∀ i, i < ht.capacity → (bucket ht i).length ≤ 1

instance (ht : HashTable) : Decidable (no_collision ht) := by
  unfold no_collision; infer_instance

/-- The table after the three inserts `(k1, v1)`, `(k2, v2)`, `(k3, v3)`, in that order. -/
def insert3 (ht : HashTable) (k1 v1 k2 v2 k3 v3 : CString) : HashTable :=
  hash_table_insert (hash_table_insert (hash_table_insert ht k1 v1) k2 v2) k3 v3

/-- What every table built by the operations satisfies: positive capacity,
`capacity` slots, bucket placement and key uniqueness. -/
def table_inv (ht : HashTable) : Prop :=
  0 < ht.capacity ∧ well_formed ht ∧ placed ht ∧ unique_keys ht

/-- A sequence of calls that uses the three operations. -/
def sample_ops : List Op :=
  [Op.insert str_a str_x, Op.insert str_b str_y, Op.remove str_c, Op.resize,
    Op.insert str_c str_z, Op.insert str_a str_y]

/-- The table the sample sequence leaves when run from `create_hash_table(1)`. -/
def sample_result : HashTable :=
  { capacity := 2, storage := [[create_pair str_a str_y], [create_pair str_b str_y]] }

/-- The hash as the specification words it: start from 5381 and fold
`acc := (acc * 33 + b) mod 2^W` over the bytes in order, `W` the width of
`unsigned long`. -/
def djb2 (key : CString) : Nat :=
  key.foldl (fun acc b => (acc * 33 + b) % 2 ^ ULONG_BITS) 5381

/-- The chain `hash_table_insert` leaves in the bucket it writes, from the
chain that was there. -/
def chain_insert (chain : Chain) (key value : CString) : Chain :=
  match chain with
  | [] => [create_pair key value]
  | head :: _ =>
    if head.key = key then [create_pair key value]
    else [head, create_pair key value]

/-- The variables of the loop of `hash_table_remove` at its `while` test:
`before` is the bucket's chain up to `old_pair`, `destroyed` says that
`current_pair` points to a pair given to `destroy_pair`, and `rest` is the
chain after `before` (with `destroyed` off, `current_pair` is its head). -/
structure RemoveState where
  before : Chain
  destroyed : Bool
  rest : Chain
deriving DecidableEq

/-- What one pass through the `while` of `hash_table_remove` does. -/
inductive RemoveStep where
  | exit (chain : Chain)
  | again (s : RemoveState)
  | undefined
deriving DecidableEq

/-- One pass through the `while` of `hash_table_remove`: the test fails at
`NULL`; on a match the pair is unlinked and destroyed and `current_pair` is
not assigned; otherwise `old_pair` and `current_pair` step forward.  With
`current_pair` on a destroyed pair the test passes and `strcmp` reads the
destroyed pair. -/
def remove_step (key : CString) (s : RemoveState) : RemoveStep :=
  match s.destroyed, s.rest with
  | true, _ => RemoveStep.undefined
  | false, [] => RemoveStep.exit s.before
  | false, current_pair :: next =>
    if current_pair.key = key then
      RemoveStep.again { before := s.before, destroyed := true, rest := next }
    else
      RemoveStep.again { before := s.before ++ [current_pair], destroyed := false, rest := next }

/-- Every bucket chain holds at most two pairs. -/
def short_chains (ht : HashTable) : Prop :=
  ∀ i, i < ht.capacity → (bucket ht i).length ≤ 2

/-- The number of pairs the table holds. -/
def pair_count (ht : HashTable) : Nat :=
  (ht.storage.map List.length).sum

/-- A table of capacity 1 whose bucket chains `"a"` and `"c"`. -/
def table_ac : HashTable :=
  hash_table_insert table_a str_c str_z

/-- What every table built by the operations satisfies, with the bound on the
chains. -/
def reach_inv (ht : HashTable) : Prop :=
  table_inv ht ∧ short_chains ht

/-- The calls that build the table `table_ac` and resize it. -/
def ops_ac : List Op :=
  [Op.insert str_a str_x, Op.insert str_c str_z]

/-! ## Buckets and the hash index -/

theorem hash_lt (k : CString) {m : Nat} (hm : 0 < m) : hash k m < m := by
  unfold hash
  exact lt_of_le_of_lt (Nat.mod_le _ _) (Nat.mod_lt _ hm)

theorem bucket_set_bucket_self (ht : HashTable) (i : Nat) (c : Chain)
    (hi : i < ht.storage.length) : bucket (set_bucket ht i c) i = c := by
  simp [bucket, set_bucket, List.getD_eq_getElem?_getD, hi]

theorem bucket_set_bucket_of_ne (ht : HashTable) {i j : Nat} (c : Chain) (h : i ≠ j) :
    bucket (set_bucket ht i c) j = bucket ht j := by
  simp [bucket, set_bucket, List.getD_eq_getElem?_getD, List.getElem?_set_ne h]

theorem list_set_getD_self (l : List Chain) (i : Nat) : l.set i (l.getD i []) = l := by
  induction l generalizing i with
  | nil => simp
  | cons c l ih =>
    cases i with
    | zero => simp
    | succ i => simpa using ih i

theorem set_bucket_bucket_self (ht : HashTable) (i : Nat) : set_bucket ht i (bucket ht i) = ht := by
  cases ht with
  | mk cap st =>
    show HashTable.mk cap (st.set i (st.getD i [])) = HashTable.mk cap st
    rw [list_set_getD_self]

@[simp]
theorem set_bucket_capacity (ht : HashTable) (i : Nat) (c : Chain) :
    (set_bucket ht i c).capacity = ht.capacity := rfl

theorem set_bucket_well_formed {ht : HashTable} (h : well_formed ht) (i : Nat) (c : Chain) :
    well_formed (set_bucket ht i c) := by
  simpa [well_formed, set_bucket] using h

theorem index_in_bounds (ht : HashTable) (k : CString) (hcap : 0 < ht.capacity)
    (hwf : well_formed ht) : hash k ht.capacity < ht.storage.length := by
  have h := hash_lt k hcap
  unfold well_formed at hwf
  omega

/-! ## Insert -/

@[simp]
theorem insert_capacity (ht : HashTable) (k v : CString) :
    (hash_table_insert ht k v).capacity = ht.capacity := by
  unfold hash_table_insert
  simp only []
  split
  · rfl
  · split <;> rfl

theorem insert_well_formed {ht : HashTable} (h : well_formed ht) (k v : CString) :
    well_formed (hash_table_insert ht k v) := by
  unfold hash_table_insert
  simp only []
  split
  · exact set_bucket_well_formed h _ _
  · split <;> exact set_bucket_well_formed h _ _

theorem bucket_insert_of_ne (ht : HashTable) (k v : CString) {j : Nat}
    (h : hash k ht.capacity ≠ j) :
    bucket (hash_table_insert ht k v) j = bucket ht j := by
  unfold hash_table_insert
  simp only []
  split
  · exact bucket_set_bucket_of_ne ht _ h
  · split <;> exact bucket_set_bucket_of_ne ht _ h

theorem bucket_insert_empty (ht : HashTable) (k v : CString) (hcap : 0 < ht.capacity)
    (hwf : well_formed ht) (hempty : bucket ht (hash k ht.capacity) = []) :
    bucket (hash_table_insert ht k v) (hash k ht.capacity) = [create_pair k v] := by
  have hi : hash k ht.capacity < ht.storage.length := index_in_bounds ht k hcap hwf
  unfold hash_table_insert
  simp only [hempty]
  exact bucket_set_bucket_self ht _ _ hi

theorem bucket_insert_same_head (ht : HashTable) (k v : CString) (hcap : 0 < ht.capacity)
    (hwf : well_formed ht) (head : LinkedPair) (rest : Chain)
    (hb : bucket ht (hash k ht.capacity) = head :: rest) (hk : head.key = k) :
    bucket (hash_table_insert ht k v) (hash k ht.capacity) = [create_pair k v] := by
  have hi : hash k ht.capacity < ht.storage.length := index_in_bounds ht k hcap hwf
  unfold hash_table_insert
  simp only [hb, hk, if_true]
  exact bucket_set_bucket_self ht _ _ hi

theorem bucket_insert_other_head (ht : HashTable) (k v : CString) (hcap : 0 < ht.capacity)
    (hwf : well_formed ht) (head : LinkedPair) (rest : Chain)
    (hb : bucket ht (hash k ht.capacity) = head :: rest) (hk : head.key ≠ k) :
    bucket (hash_table_insert ht k v) (hash k ht.capacity) = [head, create_pair k v] := by
  have hi : hash k ht.capacity < ht.storage.length := index_in_bounds ht k hcap hwf
  unfold hash_table_insert
  simp only [hb, hk, if_false]
  exact bucket_set_bucket_self ht _ _ hi

theorem retrieve_insert_of_hash_ne (ht : HashTable) (k v k2 : CString)
    (h : hash k ht.capacity ≠ hash k2 ht.capacity) :
    hash_table_retrieve (hash_table_insert ht k v) k2 = hash_table_retrieve ht k2 := by
  unfold hash_table_retrieve
  rw [insert_capacity, bucket_insert_of_ne ht k v h]

/-! ## Retrieve -/

theorem retrieve_loop_none_of_absent (k : CString) (chain : Chain)
    (h : ∀ p ∈ chain, p.key ≠ k) : retrieve_loop k chain = none := by
  induction chain with
  | nil => rfl
  | cons p rest ih =>
    have hp : p.key ≠ k := h p (List.mem_cons_self _ _)
    simp only [retrieve_loop, hp, if_false]
    exact ih (fun q hq => h q (List.mem_cons_of_mem _ hq))

/-! ## Remove -/

theorem remove_loop_freed (k : CString) (before rest : Chain) :
    remove_loop k before true rest = none := by
  cases rest <;> rfl

theorem remove_loop_of_absent (k : CString) (chain : Chain) (h : ∀ p ∈ chain, p.key ≠ k)
    (before : Chain) : remove_loop k before false chain = some (before ++ chain) := by
  induction chain generalizing before with
  | nil => simp [remove_loop]
  | cons p rest ih =>
    have hp : p.key ≠ k := h p (List.mem_cons_self _ _)
    simp only [remove_loop, hp, if_false]
    rw [ih (fun q hq => h q (List.mem_cons_of_mem _ hq))]
    simp

theorem remove_loop_of_present (k : CString) (chain : Chain) (h : ∃ p ∈ chain, p.key = k)
    (before : Chain) : remove_loop k before false chain = none := by
  induction chain generalizing before with
  | nil => simp at h
  | cons p rest ih =>
    by_cases hp : p.key = k
    · simp only [remove_loop, hp, if_true]
    · simp only [remove_loop, hp, if_false]
      apply ih
      obtain ⟨q, hq, hqk⟩ := h
      rcases List.mem_cons.mp hq with rfl | hq
      · exact absurd hqk hp
      · exact ⟨q, hq, hqk⟩

theorem remove_of_absent (ht : HashTable) (k : CString)
    (h : ∀ p ∈ bucket ht (hash k ht.capacity), p.key ≠ k) :
    hash_table_remove ht k = some ht := by
  unfold hash_table_remove
  simp only []
  rw [remove_loop_of_absent k _ h]
  simp [set_bucket_bucket_self]

theorem remove_of_present (ht : HashTable) (k : CString)
    (h : ∃ p ∈ bucket ht (hash k ht.capacity), p.key = k) :
    hash_table_remove ht k = none := by
  unfold hash_table_remove
  simp only []
  rw [remove_loop_of_present k _ h]
  rfl

theorem remove_eq_some (ht ht' : HashTable) (k : CString)
    (h : hash_table_remove ht k = some ht') : ht' = ht := by
  by_cases hp : ∃ p ∈ bucket ht (hash k ht.capacity), p.key = k
  · rw [remove_of_present ht k hp] at h
    exact absurd h (by simp)
  · have ha : ∀ p ∈ bucket ht (hash k ht.capacity), p.key ≠ k :=
      fun p hp1 hp2 => hp ⟨p, hp1, hp2⟩
    rw [remove_of_absent ht k ha] at h
    exact (Option.some.inj h).symm

theorem mem_bucket_storage {ht : HashTable} {i : Nat} {p : LinkedPair}
    (h : p ∈ bucket ht i) : ∃ chain ∈ ht.storage, p ∈ chain := by
  unfold bucket at h
  by_cases hi : i < ht.storage.length
  · rw [List.getD_eq_getElem _ _ hi] at h
    exact ⟨_, List.getElem_mem _, h⟩
  · rw [List.getD_eq_default _ _ (Nat.le_of_not_lt hi)] at h
    simp at h

theorem absent_in_bucket {ht : HashTable} {k : CString} (h : key_absent ht k) (i : Nat) :
    ∀ p ∈ bucket ht i, p.key ≠ k := by
  intro p hp
  obtain ⟨chain, hc, hpc⟩ := mem_bucket_storage hp
  exact h chain hc p hpc

theorem bucket_insert_cases (ht : HashTable) (k v : CString) (hcap : 0 < ht.capacity)
    (hwf : well_formed ht) :
    bucket (hash_table_insert ht k v) (hash k ht.capacity) = [create_pair k v] ∨
    ∃ head rest, bucket ht (hash k ht.capacity) = head :: rest ∧ head.key ≠ k ∧
      bucket (hash_table_insert ht k v) (hash k ht.capacity) = [head, create_pair k v] := by
  cases hb : bucket ht (hash k ht.capacity) with
  | nil => exact Or.inl (bucket_insert_empty ht k v hcap hwf hb)
  | cons head rest =>
    by_cases hk : head.key = k
    · exact Or.inl (bucket_insert_same_head ht k v hcap hwf head rest hb hk)
    · exact Or.inr ⟨head, rest, rfl, hk, bucket_insert_other_head ht k v hcap hwf head rest hb hk⟩

theorem bucket_insert3 (ht : HashTable) (k1 v1 k2 v2 k3 v3 : CString)
    (hcap : 0 < ht.capacity) (hwf : well_formed ht)
    (h12 : k1 ≠ k2) (h13 : k1 ≠ k3)
    (hh2 : hash k2 ht.capacity = hash k1 ht.capacity)
    (hh3 : hash k3 ht.capacity = hash k1 ht.capacity)
    (hempty : bucket ht (hash k1 ht.capacity) = []) :
    bucket (insert3 ht k1 v1 k2 v2 k3 v3) (hash k1 ht.capacity)
      = [create_pair k1 v1, create_pair k3 v3] := by
  have e1 := bucket_insert_empty ht k1 v1 hcap hwf hempty
  have c1 : (hash_table_insert ht k1 v1).capacity = ht.capacity := insert_capacity ht k1 v1
  have w1 := insert_well_formed hwf k1 v1
  have e2 := bucket_insert_other_head (hash_table_insert ht k1 v1) k2 v2 (c1 ▸ hcap) w1
    (create_pair k1 v1) [] (by rw [c1, hh2]; exact e1) h12
  have c2 : (hash_table_insert (hash_table_insert ht k1 v1) k2 v2).capacity = ht.capacity := by
    rw [insert_capacity, c1]
  have w2 := insert_well_formed w1 k2 v2
  have e3 := bucket_insert_other_head (hash_table_insert (hash_table_insert ht k1 v1) k2 v2)
    k3 v3 (c2 ▸ hcap) w2 (create_pair k1 v1) [create_pair k2 v2]
    (by rw [c2, hh3]; rw [c1, hh2] at e2; exact e2) h13
  rw [c2, hh3] at e3
  exact e3

/-! ## Invariants of the tables the operations build -/

theorem bucket_create (c i : Nat) : bucket (create_hash_table c) i = [] := by
  unfold bucket create_hash_table
  by_cases hi : i < c
  · rw [List.getD_eq_getElem _ _ (by simpa using hi)]
    simp
  · rw [List.getD_eq_default _ _ (by simpa using hi)]

theorem create_inv {c : Nat} (hc : 0 < c) : table_inv (create_hash_table c) := by
  refine ⟨hc, by simp [well_formed, create_hash_table], ?_, ?_⟩
  · intro i _ p hp
    rw [bucket_create] at hp
    simp at hp
  · intro i _
    rw [bucket_create]
    exact List.Pairwise.nil

theorem insert_inv {ht : HashTable} (h : table_inv ht) (k v : CString) :
    table_inv (hash_table_insert ht k v) := by
  obtain ⟨hcap, hwf, hpl, huq⟩ := h
  refine ⟨by rw [insert_capacity]; exact hcap, insert_well_formed hwf k v, ?_, ?_⟩
  · intro i hi p hp
    rw [insert_capacity] at hi ⊢
    by_cases hik : hash k ht.capacity = i
    · subst hik
      rcases bucket_insert_cases ht k v hcap hwf with e | ⟨head, rest, hb, _, e⟩
      · rw [e] at hp
        rw [List.mem_singleton.mp hp]
        rfl
      · rw [e] at hp
        rcases List.mem_cons.mp hp with rfl | hp
        · exact hpl _ hi p (hb ▸ List.mem_cons_self _ _)
        · rw [List.mem_singleton.mp hp]
          rfl
    · rw [bucket_insert_of_ne ht k v hik] at hp
      exact hpl i hi p hp
  · intro i hi
    rw [insert_capacity] at hi
    by_cases hik : hash k ht.capacity = i
    · subst hik
      rcases bucket_insert_cases ht k v hcap hwf with e | ⟨head, rest, _, hk, e⟩
      · rw [e]
        exact List.pairwise_singleton _ _
      · rw [e]
        exact List.pairwise_pair.mpr hk
    · rw [bucket_insert_of_ne ht k v hik]
      exact huq i hi

theorem resize_chain_inv (chain : Chain) {t : HashTable} (h : table_inv t) :
    table_inv (resize_chain t chain) := by
  unfold resize_chain
  induction chain generalizing t with
  | nil => exact h
  | cons p rest ih => exact ih (insert_inv h p.key p.value)

theorem resize_loop_inv (ht : HashTable) (l : List Nat) {t : HashTable} (h : table_inv t) :
    table_inv (l.foldl (fun new_ht i => resize_chain new_ht (bucket ht i)) t) := by
  induction l generalizing t with
  | nil => exact h
  | cons i rest ih => exact ih (resize_chain_inv _ h)

theorem resize_inv {ht ht' : HashTable} (hcap : 0 < ht.capacity)
    (h : hash_table_resize ht = some ht') : table_inv ht' := by
  unfold hash_table_resize at h
  split at h
  · rw [← Option.some.inj h]
    exact resize_loop_inv ht _ (create_inv (by omega))
  · exact absurd h (by simp)

theorem apply_op_inv {ht ht' : HashTable} (hinv : table_inv ht) (op : Op)
    (h : apply_op ht op = some ht') : table_inv ht' := by
  cases op with
  | insert k v =>
    rw [← Option.some.inj h]
    exact insert_inv hinv k v
  | remove k =>
    rw [remove_eq_some ht ht' k h]
    exact hinv
  | resize => exact resize_inv hinv.1 h

theorem run_ops_inv (ops : List Op) {ht ht' : HashTable} (hinv : table_inv ht)
    (h : run_ops ht ops = some ht') : table_inv ht' := by
  induction ops generalizing ht with
  | nil =>
    rw [← Option.some.inj h]
    exact hinv
  | cons op rest ih =>
    unfold run_ops at h
    cases hop : apply_op ht op with
    | none => rw [hop] at h; exact absurd h (by simp)
    | some t =>
      rw [hop] at h
      exact ih (apply_op_inv hinv op hop) h

/-! ## Resize -/

theorem hash_eq_mod (k : CString) {m : Nat} (hpos : 0 < m) (hint : m ≤ INT_MAX) :
    hash k m = hash_loop 5381 k % m := by
  have hlt : hash_loop 5381 k % m < m := Nat.mod_lt _ hpos
  have hmax : INT_MAX < 2 ^ UINT_BITS := by decide
  unfold hash
  exact Nat.mod_eq_of_lt (by omega)

theorem hash_double_mod (k : CString) {c : Nat} (hpos : 0 < c) (hint : c * 2 ≤ INT_MAX) :
    hash k (c * 2) % c = hash k c := by
  rw [hash_eq_mod k (by omega) hint, hash_eq_mod k hpos (by omega)]
  exact Nat.mod_mod_of_dvd _ (Dvd.intro 2 rfl)

theorem retrieve_loop_some {k v : CString} {chain : Chain}
    (h : retrieve_loop k chain = some v) : ∃ p ∈ chain, p.key = k ∧ p.value = v := by
  induction chain with
  | nil => simp [retrieve_loop] at h
  | cons q rest ih =>
    by_cases hq : q.key = k
    · simp only [retrieve_loop, hq, if_true] at h
      exact ⟨q, List.mem_cons_self _ _, hq, Option.some.inj h⟩
    · simp only [retrieve_loop, hq, if_false] at h
      obtain ⟨p, hp, hpk, hpv⟩ := ih h
      exact ⟨p, List.mem_cons_of_mem _ hp, hpk, hpv⟩

@[simp]
theorem resize_chain_capacity (chain : Chain) (t : HashTable) :
    (resize_chain t chain).capacity = t.capacity := by
  unfold resize_chain
  induction chain generalizing t with
  | nil => rfl
  | cons p rest ih =>
    rw [List.foldl_cons, ih, insert_capacity]

theorem resize_chain_well_formed (chain : Chain) {t : HashTable} (h : well_formed t) :
    well_formed (resize_chain t chain) := by
  unfold resize_chain
  induction chain generalizing t with
  | nil => exact h
  | cons p rest ih => exact ih (insert_well_formed h p.key p.value)

theorem resize_chain_bucket_of_ne (chain : Chain) (t : HashTable) (j : Nat)
    (h : ∀ p ∈ chain, hash p.key t.capacity ≠ j) :
    bucket (resize_chain t chain) j = bucket t j := by
  unfold resize_chain
  induction chain generalizing t with
  | nil => rfl
  | cons p rest ih =>
    rw [List.foldl_cons, ih]
    · exact bucket_insert_of_ne t p.key p.value (h p (List.mem_cons_self _ _))
    · intro q hq
      rw [insert_capacity]
      exact h q (List.mem_cons_of_mem _ hq)

theorem resize_chain_retrieve (chain : Chain) (t : HashTable) (hcap : 0 < t.capacity)
    (hwf : well_formed t)
    (hdist : chain.Pairwise (fun p q => hash p.key t.capacity ≠ hash q.key t.capacity))
    (hempty : ∀ p ∈ chain, bucket t (hash p.key t.capacity) = []) :
    ∀ p ∈ chain, hash_table_retrieve (resize_chain t chain) p.key = some p.value := by
  induction chain generalizing t with
  | nil => intro p hp; simp at hp
  | cons q rest ih =>
    have hq := List.pairwise_cons.mp hdist
    have hcap1 : (hash_table_insert t q.key q.value).capacity = t.capacity :=
      insert_capacity t q.key q.value
    have hstep : resize_chain t (q :: rest)
        = resize_chain (hash_table_insert t q.key q.value) rest := rfl
    intro p hp
    rw [hstep]
    rcases List.mem_cons.mp hp with rfl | hp
    · unfold hash_table_retrieve
      rw [resize_chain_capacity, hcap1, resize_chain_bucket_of_ne]
      · rw [bucket_insert_empty t p.key p.value hcap hwf (hempty p (List.mem_cons_self _ _))]
        simp [retrieve_loop, create_pair]
      · intro r hr
        rw [hcap1]
        exact fun e => hq.1 r hr e.symm
    · apply ih (hash_table_insert t q.key q.value) (hcap1 ▸ hcap)
        (insert_well_formed hwf q.key q.value)
      · rw [hcap1]
        exact hq.2
      · intro r hr
        rw [hcap1, bucket_insert_of_ne t q.key q.value (hq.1 r hr)]
        exact hempty r (List.mem_cons_of_mem _ hr)
      · exact hp

theorem resize_eq_flatten {ht ht' : HashTable} (h : hash_table_resize ht = some ht') :
    ht' = resize_chain (create_hash_table (ht.capacity * 2))
      ((List.range ht.capacity).map (bucket ht)).flatten := by
  unfold hash_table_resize at h
  split at h
  · rw [← Option.some.inj h]
    unfold resize_chain
    rw [List.foldl_flatten, List.foldl_map]
  · exact absurd h (by simp)

theorem resize_defined {ht : HashTable} (hint : ht.capacity * 2 ≤ INT_MAX) :
    ∃ ht', hash_table_resize ht = some ht' := by
  unfold hash_table_resize
  rw [if_pos hint]
  exact ⟨_, rfl⟩

theorem pairs_distinct_after_doubling (ht : HashTable) (hcap : 0 < ht.capacity)
    (hint : ht.capacity * 2 ≤ INT_MAX) (hone : no_collision ht) (hpl : placed ht) :
    (((List.range ht.capacity).map (bucket ht)).flatten).Pairwise
      (fun p q => hash p.key (ht.capacity * 2) ≠ hash q.key (ht.capacity * 2)) := by
  rw [List.pairwise_flatten]
  constructor
  · intro l hl
    obtain ⟨i, hi, rfl⟩ := List.mem_map.mp hl
    have hlen := hone i (List.mem_range.mp hi)
    match hb : bucket ht i, hlen with
    | [], _ => exact List.Pairwise.nil
    | [x], _ => exact List.pairwise_singleton _ _
    | _ :: _ :: _, hlen => simp [hb] at hlen
  · rw [List.pairwise_map]
    refine List.Pairwise.imp_of_mem ?_ (List.pairwise_lt_range ht.capacity)
    intro i j hi hj hij p hp q hq e
    have e1 := hpl i (List.mem_range.mp hi) p hp
    have e2 := hpl j (List.mem_range.mp hj) q hq
    have d1 := hash_double_mod p.key hcap hint
    have d2 := hash_double_mod q.key hcap hint
    rw [e] at d1
    omega

/-! ## The hash against djb2 -/

theorem hash_step_eq (h c : Nat) :
    (((h <<< 5) % 2 ^ ULONG_BITS + h) % 2 ^ ULONG_BITS + c) % 2 ^ ULONG_BITS
      = (h * 33 + c) % 2 ^ ULONG_BITS := by
  rw [Nat.shiftLeft_eq]
  simp only [ULONG_BITS]
  omega

theorem hash_loop_eq_foldl (key : CString) (h : Nat) (hnz : ∀ b ∈ key, b ≠ 0) :
    hash_loop h key = key.foldl (fun acc b => (acc * 33 + b) % 2 ^ ULONG_BITS) h := by
  induction key generalizing h with
  | nil => rfl
  | cons c rest ih =>
    have hc : c ≠ 0 := hnz c (List.mem_cons_self _ _)
    simp only [hash_loop, hc, if_false, List.foldl_cons]
    rw [hash_step_eq, ih _ (fun b hb => hnz b (List.mem_cons_of_mem _ hb))]

/-! ## More on insert and resize -/

theorem bucket_insert_self (ht : HashTable) (k v : CString) (hcap : 0 < ht.capacity)
    (hwf : well_formed ht) :
    bucket (hash_table_insert ht k v) (hash k ht.capacity)
      = chain_insert (bucket ht (hash k ht.capacity)) k v := by
  cases hb : bucket ht (hash k ht.capacity) with
  | nil =>
    rw [bucket_insert_empty ht k v hcap hwf hb]
    rfl
  | cons head rest =>
    by_cases hk : head.key = k
    · rw [bucket_insert_same_head ht k v hcap hwf head rest hb hk]
      simp [chain_insert, hk]
    · rw [bucket_insert_other_head ht k v hcap hwf head rest hb hk]
      simp [chain_insert, hk]

theorem retrieve_chain_insert (chain : Chain) (k v : CString) :
    retrieve_loop k (chain_insert chain k v) = some v := by
  cases chain with
  | nil => simp [chain_insert, retrieve_loop, create_pair]
  | cons head rest =>
    by_cases hk : head.key = k
    · simp [chain_insert, hk, retrieve_loop, create_pair]
    · simp [chain_insert, hk, retrieve_loop, create_pair]

theorem resize_loop_capacity (ht : HashTable) (l : List Nat) (t : HashTable) :
    (l.foldl (fun new_ht i => resize_chain new_ht (bucket ht i)) t).capacity = t.capacity := by
  induction l generalizing t with
  | nil => rfl
  | cons i rest ih => rw [List.foldl_cons, ih, resize_chain_capacity]

theorem resize_loop_well_formed (ht : HashTable) (l : List Nat) {t : HashTable}
    (h : well_formed t) :
    well_formed (l.foldl (fun new_ht i => resize_chain new_ht (bucket ht i)) t) := by
  induction l generalizing t with
  | nil => exact h
  | cons i rest ih => exact ih (resize_chain_well_formed _ h)

theorem create_well_formed (c : Nat) : well_formed (create_hash_table c) := by
  simp [well_formed, create_hash_table]

theorem resize_capacity {ht ht' : HashTable} (h : hash_table_resize ht = some ht') :
    ht'.capacity = ht.capacity * 2 ∧ well_formed ht' := by
  unfold hash_table_resize at h
  split at h
  · rw [← Option.some.inj h]
    exact ⟨resize_loop_capacity ht _ _, resize_loop_well_formed ht _ (create_well_formed _)⟩
  · exact absurd h (by simp)

theorem remove_loop_step (key : CString) (s : RemoveState) :
    remove_loop key s.before s.destroyed s.rest =
      match remove_step key s with
      | RemoveStep.exit chain => some chain
      | RemoveStep.again s' => remove_loop key s'.before s'.destroyed s'.rest
      | RemoveStep.undefined => none := by
  obtain ⟨before, destroyed, rest⟩ := s
  cases destroyed with
  | true => simp [remove_loop, remove_step]
  | false =>
    cases rest with
    | nil => simp [remove_loop, remove_step]
    | cons p next =>
      by_cases hp : p.key = key
      · simp [remove_loop, remove_step, hp]
      · simp [remove_loop, remove_step, hp]

theorem retrieve_loop_two_none (head new_pair : LinkedPair) (k2 : CString)
    (h1 : head.key ≠ k2) (h2 : new_pair.key ≠ k2) :
    retrieve_loop k2 [head, new_pair] = none := by
  simp [retrieve_loop, h1, h2]

/-! ## Chains of at most two pairs -/

theorem chain_insert_length (chain : Chain) (k v : CString) :
    (chain_insert chain k v).length ≤ 2 := by
  cases chain with
  | nil => simp [chain_insert]
  | cons head rest =>
    by_cases hk : head.key = k
    · simp [chain_insert, hk]
    · simp [chain_insert, hk]

theorem insert_reach_inv {ht : HashTable} (h : reach_inv ht) (k v : CString) :
    reach_inv (hash_table_insert ht k v) := by
  obtain ⟨hinv, hs⟩ := h
  refine ⟨insert_inv hinv k v, ?_⟩
  intro i hi
  rw [insert_capacity] at hi
  by_cases hik : hash k ht.capacity = i
  · subst hik
    rw [bucket_insert_self ht k v hinv.1 hinv.2.1]
    exact chain_insert_length _ k v
  · rw [bucket_insert_of_ne ht k v hik]
    exact hs i hi

theorem create_reach_inv {c : Nat} (hc : 0 < c) : reach_inv (create_hash_table c) := by
  refine ⟨create_inv hc, ?_⟩
  intro i _
  rw [bucket_create]
  exact Nat.zero_le _

theorem resize_chain_reach_inv (chain : Chain) {t : HashTable} (h : reach_inv t) :
    reach_inv (resize_chain t chain) := by
  unfold resize_chain
  induction chain generalizing t with
  | nil => exact h
  | cons p rest ih => exact ih (insert_reach_inv h p.key p.value)

theorem resize_loop_reach_inv (ht : HashTable) (l : List Nat) {t : HashTable}
    (h : reach_inv t) :
    reach_inv (l.foldl (fun new_ht i => resize_chain new_ht (bucket ht i)) t) := by
  induction l generalizing t with
  | nil => exact h
  | cons i rest ih => exact ih (resize_chain_reach_inv _ h)

theorem resize_reach_inv {ht ht' : HashTable} (hcap : 0 < ht.capacity)
    (h : hash_table_resize ht = some ht') : reach_inv ht' := by
  unfold hash_table_resize at h
  split at h
  · rw [← Option.some.inj h]
    exact resize_loop_reach_inv ht _ (create_reach_inv (by omega))
  · exact absurd h (by simp)

theorem apply_op_reach_inv {ht ht' : HashTable} (hinv : reach_inv ht) (op : Op)
    (h : apply_op ht op = some ht') : reach_inv ht' := by
  cases op with
  | insert k v =>
    rw [← Option.some.inj h]
    exact insert_reach_inv hinv k v
  | remove k =>
    rw [remove_eq_some ht ht' k h]
    exact hinv
  | resize => exact resize_reach_inv hinv.1.1 h

theorem run_ops_reach_inv (ops : List Op) {ht ht' : HashTable} (hinv : reach_inv ht)
    (h : run_ops ht ops = some ht') : reach_inv ht' := by
  induction ops generalizing ht with
  | nil =>
    rw [← Option.some.inj h]
    exact hinv
  | cons op rest ih =>
    unfold run_ops at h
    cases hop : apply_op ht op with
    | none => rw [hop] at h; exact absurd h (by simp)
    | some t =>
      rw [hop] at h
      exact ih (apply_op_reach_inv hinv op hop) h

theorem sum_lengths_le (l : List Chain) (h : ∀ c ∈ l, c.length ≤ 2) :
    (l.map List.length).sum ≤ 2 * l.length := by
  induction l with
  | nil => simp
  | cons c rest ih =>
    have h1 := h c (List.mem_cons_self _ _)
    have h2 := ih (fun d hd => h d (List.mem_cons_of_mem _ hd))
    simp only [List.map_cons, List.sum_cons, List.length_cons]
    omega

theorem mem_storage_bucket {ht : HashTable} {chain : Chain} (h : chain ∈ ht.storage) :
    ∃ i, i < ht.storage.length ∧ bucket ht i = chain := by
  obtain ⟨i, hi, e⟩ := List.getElem_of_mem h
  refine ⟨i, hi, ?_⟩
  unfold bucket
  rw [List.getD_eq_getElem _ _ hi, e]

theorem pair_count_le {ht : HashTable} (hwf : well_formed ht) (hs : short_chains ht) :
    pair_count ht ≤ 2 * ht.capacity := by
  unfold pair_count
  have h := sum_lengths_le ht.storage (by
    intro chain hc
    obtain ⟨i, hi, e⟩ := mem_storage_bucket hc
    rw [← e]
    exact hs i (hwf ▸ hi))
  unfold well_formed at hwf
  omega

/-! ## Resize of chains of at most two pairs -/

theorem resize_chain_bucket (chain : Chain) (t : HashTable) (hcap : 0 < t.capacity)
    (hwf : well_formed t) (j : Nat) :
    bucket (resize_chain t chain) j =
      (chain.filter (fun p => decide (hash p.key t.capacity = j))).foldl
        (fun c p => chain_insert c p.key p.value) (bucket t j) := by
  unfold resize_chain
  induction chain generalizing t with
  | nil => rfl
  | cons p rest ih =>
    rw [List.foldl_cons, ih _ (by rw [insert_capacity]; exact hcap)
      (insert_well_formed hwf _ _), insert_capacity]
    by_cases hj : hash p.key t.capacity = j
    · rw [List.filter_cons_of_pos (by simpa using hj), List.foldl_cons, ← hj,
        bucket_insert_self t p.key p.value hcap hwf]
    · rw [List.filter_cons_of_neg (by simpa using hj), bucket_insert_of_ne t p.key p.value hj]

theorem filter_flatten_nil (f : Nat → Chain) (P : LinkedPair → Bool) (l : List Nat)
    (h : ∀ i ∈ l, ∀ p ∈ f i, P p = false) : ((l.map f).flatten).filter P = [] := by
  rw [List.filter_eq_nil_iff]
  intro p hp
  obtain ⟨c, hc, hpc⟩ := List.mem_flatten.mp hp
  obtain ⟨i, hi, rfl⟩ := List.mem_map.mp hc
  simp [h i hi p hpc]

theorem filter_flatten_single (f : Nat → Chain) (P : LinkedPair → Bool) (i0 : Nat)
    (l : List Nat) (hnd : l.Nodup) (hmem : i0 ∈ l)
    (hother : ∀ i ∈ l, i ≠ i0 → ∀ p ∈ f i, P p = false) :
    ((l.map f).flatten).filter P = (f i0).filter P := by
  induction l with
  | nil => simp at hmem
  | cons i rest ih =>
    have hnd' := List.nodup_cons.mp hnd
    rw [List.map_cons, List.flatten_cons, List.filter_append]
    by_cases hi : i = i0
    · subst hi
      rw [filter_flatten_nil f P rest (fun j hj p hp =>
        hother j (List.mem_cons_of_mem _ hj) (fun e => hnd'.1 (e ▸ hj)) p hp)]
      simp
    · have h0 : (f i).filter P = [] := by
        rw [List.filter_eq_nil_iff]
        intro p hp
        simp [hother i (List.mem_cons_self _ _) hi p hp]
      rw [h0, List.nil_append]
      apply ih hnd'.2
      · rcases List.mem_cons.mp hmem with e | e
        · exact absurd e.symm hi
        · exact e
      · exact fun j hj => hother j (List.mem_cons_of_mem _ hj)

theorem foldl_chain_insert_short (c : Chain) (hlen : c.length ≤ 2)
    (hd : c.Pairwise (fun p q => p.key ≠ q.key)) :
    c.foldl (fun c p => chain_insert c p.key p.value) [] = c := by
  match c, hlen, hd with
  | [], _, _ => rfl
  | [p], _, _ => rfl
  | [p, q], _, hd =>
    have hpq : p.key ≠ q.key := (List.pairwise_cons.mp hd).1 q (List.mem_singleton_self q)
    simp [chain_insert, create_pair, hpq]
  | _ :: _ :: _ :: _, hlen, _ => simp at hlen

theorem retrieve_loop_filter (k : CString) (P : LinkedPair → Bool)
    (hP : ∀ p, p.key = k → P p = true) (c : Chain) :
    retrieve_loop k (c.filter P) = retrieve_loop k c := by
  induction c with
  | nil => rfl
  | cons p rest ih =>
    by_cases hk : p.key = k
    · rw [List.filter_cons_of_pos (hP p hk)]
      simp [retrieve_loop, hk]
    · by_cases hp : P p = true
      · rw [List.filter_cons_of_pos hp]
        simp [retrieve_loop, hk, ih]
      · rw [List.filter_cons_of_neg hp]
        simp [retrieve_loop, hk, ih]

theorem resize_retrieve_eq {ht ht' : HashTable} (hinv : reach_inv ht)
    (hint : ht.capacity * 2 ≤ INT_MAX) (hres : hash_table_resize ht = some ht')
    (k : CString) : hash_table_retrieve ht' k = hash_table_retrieve ht k := by
  obtain ⟨⟨hcap, _, hpl, huq⟩, hs⟩ := hinv
  have hnew : 0 < (create_hash_table (ht.capacity * 2)).capacity :=
    Nat.mul_pos hcap (by decide)
  have hi0 : hash k ht.capacity < ht.capacity := hash_lt k hcap
  have hcapnew : (create_hash_table (ht.capacity * 2)).capacity = ht.capacity * 2 := rfl
  unfold hash_table_retrieve
  rw [resize_eq_flatten hres, resize_chain_capacity, hcapnew,
    resize_chain_bucket _ _ hnew (create_well_formed _), bucket_create, hcapnew,
    filter_flatten_single (bucket ht) _ (hash k ht.capacity) (List.range ht.capacity)
      (List.nodup_range _) (List.mem_range.mpr hi0)]
  · rw [foldl_chain_insert_short]
    · exact retrieve_loop_filter k _ (fun p hp => by simp [hp]) _
    · exact le_trans (List.length_filter_le _ _) (hs _ hi0)
    · exact (huq _ hi0).sublist (List.filter_sublist _)
  · intro i hi hne p hp
    have e1 := hpl i (List.mem_range.mp hi) p hp
    have d1 := hash_double_mod p.key hcap hint
    have d2 := hash_double_mod k hcap hint
    simp only [decide_eq_false_iff_not]
    intro e
    rw [e] at d1
    omega

/-! ## The claims -/

/-- C1: on a table with positive capacity, when the bucket at index
`hash(k, capacity)` is empty, `hash_table_retrieve(table, k)` right after
`hash_table_insert(table, k, v)` returns `v`. -/
theorem retrieve_insert_empty_bucket (ht : HashTable) (k v : CString)
    (hcap : 0 < ht.capacity) (hwf : well_formed ht)
    (hempty : bucket ht (hash k ht.capacity) = []) :
    hash_table_retrieve (hash_table_insert ht k v) k = some v := by
  unfold hash_table_retrieve
  rw [insert_capacity, bucket_insert_empty ht k v hcap hwf hempty]
  simp [retrieve_loop, create_pair]

/-- The demo's insert of `"line_1"` into the fresh table of capacity 2. -/
theorem retrieve_insert_empty_bucket_witness :
    0 < (create_hash_table 2).capacity ∧ well_formed (create_hash_table 2) ∧
    bucket (create_hash_table 2) (hash line_1 (create_hash_table 2).capacity) = [] ∧
    hash_table_retrieve (hash_table_insert (create_hash_table 2) line_1 tiny_hash_table) line_1
      = some tiny_hash_table :=
  ⟨by decide, by decide, by decide,
    retrieve_insert_empty_bucket (create_hash_table 2) line_1 tiny_hash_table
      (by decide) (by decide) (by decide)⟩

/-- C2, at the failing input: on the table of capacity 1 that holds only `"a"`
(so `"a"` is retrievable), `hash_table_remove(table, "a")` unlinks and destroys
the pair and then reads it again; the call has no defined result. -/
theorem remove_present_key_undefined :
    0 < table_a.capacity ∧ well_formed table_a ∧
    hash_table_retrieve table_a str_a = some str_x ∧
    hash_table_remove table_a str_a = none := by
  decide

/-- C3: on a table with positive capacity, when no pair in the chain of bucket
`hash(k, capacity)` has key `k`, `hash_table_retrieve(table, k)` returns `NULL`.
The function only reads the table, so the table it was given is the table
afterwards. -/
theorem retrieve_absent (ht : HashTable) (k : CString)
    (_hcap : 0 < ht.capacity) (_hwf : well_formed ht)
    (habsent : ∀ p ∈ bucket ht (hash k ht.capacity), p.key ≠ k) :
    hash_table_retrieve ht k = none :=
  retrieve_loop_none_of_absent k _ habsent

/-- The demo: after inserting only `"line_1"` and resizing, `"line-1"` is not found. -/
theorem retrieve_absent_witness :
    hash_table_resize demo_table = some demo_resized ∧
    0 < demo_resized.capacity ∧ well_formed demo_resized ∧
    (∀ p ∈ bucket demo_resized (hash line_dash_1 demo_resized.capacity), p.key ≠ line_dash_1) ∧
    hash_table_retrieve demo_resized line_dash_1 = none :=
  ⟨by decide, by decide, by decide, by decide,
    retrieve_absent demo_resized line_dash_1 (by decide) (by decide) (by decide)⟩

/-- C4: on a table with positive capacity whose doubled capacity fits in `int`,
in which every bucket holds at most one pair and every pair sits in the bucket
of its hash: `hash_table_resize` returns a table, and a key that retrieved `v`
before retrieves the same `v` from the resized table. -/
theorem resize_preserves_retrieve (ht : HashTable) (k v : CString)
    (hcap : 0 < ht.capacity) (hint : ht.capacity * 2 ≤ INT_MAX) (_hwf : well_formed ht)
    (hone : no_collision ht) (hpl : placed ht)
    (hget : hash_table_retrieve ht k = some v) :
    ∃ ht', hash_table_resize ht = some ht' ∧ hash_table_retrieve ht' k = some v := by
  obtain ⟨ht', hres⟩ := resize_defined hint
  refine ⟨ht', hres, ?_⟩
  obtain ⟨p, hp, hpk, hpv⟩ := retrieve_loop_some hget
  have hmem : p ∈ ((List.range ht.capacity).map (bucket ht)).flatten :=
    List.mem_flatten.mpr ⟨_, List.mem_map.mpr
      ⟨hash k ht.capacity, List.mem_range.mpr (hash_lt k hcap), rfl⟩, hp⟩
  have hnew : 0 < (create_hash_table (ht.capacity * 2)).capacity :=
    Nat.mul_pos hcap (by decide)
  have hr := resize_chain_retrieve _ (create_hash_table (ht.capacity * 2)) hnew
    (create_inv hnew).2.1 (pairs_distinct_after_doubling ht hcap hint hone hpl)
    (fun q _ => bucket_create _ _) p hmem
  rw [resize_eq_flatten hres, ← hpk, ← hpv]
  exact hr

/-- The demo's table of capacity 2 that holds the single key `"line_1"`. -/
theorem resize_preserves_retrieve_witness :
    0 < demo_table.capacity ∧ demo_table.capacity * 2 ≤ INT_MAX ∧ well_formed demo_table ∧
    no_collision demo_table ∧ placed demo_table ∧
    hash_table_retrieve demo_table line_1 = some tiny_hash_table ∧
    ∃ ht', hash_table_resize demo_table = some ht' ∧
      hash_table_retrieve ht' line_1 = some tiny_hash_table :=
  ⟨by decide, by decide, by decide, by decide, by decide, by decide,
    resize_preserves_retrieve demo_table line_1 tiny_hash_table
      (by decide) (by decide) (by decide) (by decide) (by decide) (by decide)⟩

/-- C5, at the failing input: the bucket of the table of capacity 1 chains `"a"`
and `"b"`, and no pair has key `"c"`; after `hash_table_insert(table, "c", "z")`
the key `"c"` is retrievable, but `"b"`, retrievable before, is no longer found:
the new pair took the place of the head's `next`. -/
theorem insert_collision_drops_second :
    bucket table_ab (hash str_c table_ab.capacity) ≠ [] ∧
    (∀ p ∈ bucket table_ab (hash str_c table_ab.capacity), p.key ≠ str_c) ∧
    hash_table_retrieve table_ab str_b = some str_y ∧
    hash_table_retrieve (hash_table_insert table_ab str_c str_z) str_c = some str_z ∧
    hash_table_retrieve (hash_table_insert table_ab str_c str_z) str_b = none := by
  decide

/-- C6 as stated fails: on the fresh table of capacity 1, after inserting `"a"`,
`"b"`, `"c"` in that order, the first key `"a"` is found and the second key
`"b"` is not, so it is not the case that `"a"` is not found while `"b"` and
`"c"` are. -/
theorem three_colliding_inserts_counterexample :
    0 < (create_hash_table 1).capacity ∧ well_formed (create_hash_table 1) ∧
    str_a ≠ str_b ∧ str_a ≠ str_c ∧ str_b ≠ str_c ∧
    hash str_b 1 = hash str_a 1 ∧ hash str_c 1 = hash str_a 1 ∧
    bucket (create_hash_table 1) (hash str_a 1) = [] ∧
    hash_table_retrieve
      (insert3 (create_hash_table 1) str_a str_x str_b str_y str_c str_z) str_a = some str_x ∧
    ¬ (hash_table_retrieve
        (insert3 (create_hash_table 1) str_a str_x str_b str_y str_c str_z) str_a = none ∧
      hash_table_retrieve
        (insert3 (create_hash_table 1) str_a str_x str_b str_y str_c str_z) str_b = some str_y ∧
      hash_table_retrieve
        (insert3 (create_hash_table 1) str_a str_x str_b str_y str_c str_z) str_c = some str_z) := by
  decide

/-- C6, amended: for three pairwise distinct keys that hash to the same bucket,
empty beforehand, after inserting `k1`, `k2`, `k3` in that order the
first-inserted key `k1` is retrievable with its value, and so is the
last-inserted key `k3`. -/
theorem three_colliding_inserts (ht : HashTable) (k1 v1 k2 v2 k3 v3 : CString)
    (hcap : 0 < ht.capacity) (hwf : well_formed ht)
    (h12 : k1 ≠ k2) (h13 : k1 ≠ k3) (_h23 : k2 ≠ k3)
    (hh2 : hash k2 ht.capacity = hash k1 ht.capacity)
    (hh3 : hash k3 ht.capacity = hash k1 ht.capacity)
    (hempty : bucket ht (hash k1 ht.capacity) = []) :
    hash_table_retrieve (insert3 ht k1 v1 k2 v2 k3 v3) k1 = some v1 ∧
    hash_table_retrieve (insert3 ht k1 v1 k2 v2 k3 v3) k3 = some v3 := by
  have hb := bucket_insert3 ht k1 v1 k2 v2 k3 v3 hcap hwf h12 h13 hh2 hh3 hempty
  have hc : (insert3 ht k1 v1 k2 v2 k3 v3).capacity = ht.capacity := by
    simp [insert3]
  constructor
  · unfold hash_table_retrieve
    rw [hc, hb]
    simp [retrieve_loop, create_pair]
  · unfold hash_table_retrieve
    rw [hc, hh3, hb]
    simp [retrieve_loop, create_pair, h13]

/-- The keys `"a"`, `"b"`, `"c"` on the fresh table of capacity 1. -/
theorem three_colliding_inserts_witness :
    hash_table_retrieve
      (insert3 (create_hash_table 1) str_a str_x str_b str_y str_c str_z) str_a = some str_x ∧
    hash_table_retrieve
      (insert3 (create_hash_table 1) str_a str_x str_b str_y str_c str_z) str_c = some str_z :=
  three_colliding_inserts (create_hash_table 1) str_a str_x str_b str_y str_c str_z
    (by decide) (by decide) (by decide) (by decide) (by decide) (by decide) (by decide)
    (by decide)

/-- C7: on a table with positive capacity, when no pair of the table has key
`k`, `hash_table_remove(table, k)` returns with the table as it was: same
capacity, same storage (every chain with its pairs, order, keys and values),
hence the same result for every retrieve. -/
theorem remove_absent_noop (ht : HashTable) (k : CString)
    (_hcap : 0 < ht.capacity) (_hwf : well_formed ht) (habsent : key_absent ht k) :
    ∃ ht', hash_table_remove ht k = some ht' ∧ ht'.capacity = ht.capacity ∧
      ht'.storage = ht.storage ∧ (∀ i, bucket ht' i = bucket ht i) ∧
      ∀ k2, hash_table_retrieve ht' k2 = hash_table_retrieve ht k2 :=
  ⟨ht, remove_of_absent ht k (absent_in_bucket habsent _), rfl, rfl, fun _ => rfl, fun _ => rfl⟩

/-- Removing `"line-1"` from the demo's table, which holds only `"line_1"`. -/
theorem remove_absent_noop_witness :
    0 < demo_table.capacity ∧ well_formed demo_table ∧ key_absent demo_table line_dash_1 ∧
    ∃ ht', hash_table_remove demo_table line_dash_1 = some ht' ∧
      ht'.capacity = demo_table.capacity ∧ ht'.storage = demo_table.storage ∧
      (∀ i, bucket ht' i = bucket demo_table i) ∧
      ∀ k2, hash_table_retrieve ht' k2 = hash_table_retrieve demo_table k2 :=
  ⟨by decide, by decide, by decide,
    remove_absent_noop demo_table line_dash_1 (by decide) (by decide) (by decide)⟩

/-- C8: in the table left by any sequence of `hash_table_insert`,
`hash_table_remove` and `hash_table_resize` calls that starts from
`create_hash_table(c)`, `c > 0`, every pair in the chain of bucket `i` has
`hash(key, capacity) == i`. -/
theorem placement_invariant (c : Nat) (ops : List Op) (ht : HashTable) (hc : 0 < c)
    (hrun : run_ops (create_hash_table c) ops = some ht) :
    ∀ i, i < ht.capacity → ∀ p ∈ bucket ht i, hash p.key ht.capacity = i :=
  (run_ops_inv ops (create_inv hc) hrun).2.2.1

/-- The sample sequence of calls from the fresh table of capacity 1. -/
theorem placement_invariant_witness :
    0 < 1 ∧ run_ops (create_hash_table 1) sample_ops = some sample_result ∧
    ∀ i, i < sample_result.capacity →
      ∀ p ∈ bucket sample_result i, hash p.key sample_result.capacity = i :=
  ⟨by decide, by decide,
    placement_invariant 1 sample_ops sample_result (by decide) (by decide)⟩

/-- C9: in the table left by any sequence of `hash_table_insert`,
`hash_table_remove` and `hash_table_resize` calls that starts from
`create_hash_table(c)`, `c > 0`, no bucket chain holds two pairs with the
same key. -/
theorem key_uniqueness_invariant (c : Nat) (ops : List Op) (ht : HashTable) (hc : 0 < c)
    (hrun : run_ops (create_hash_table c) ops = some ht) :
    ∀ i, i < ht.capacity → (bucket ht i).Pairwise (fun p q => p.key ≠ q.key) :=
  (run_ops_inv ops (create_inv hc) hrun).2.2.2

/-- The sample sequence of calls from the fresh table of capacity 1. -/
theorem key_uniqueness_invariant_witness :
    0 < 1 ∧ run_ops (create_hash_table 1) sample_ops = some sample_result ∧
    ∀ i, i < sample_result.capacity →
      (bucket sample_result i).Pairwise (fun p q => p.key ≠ q.key) :=
  ⟨by decide, by decide,
    key_uniqueness_invariant 1 sample_ops sample_result (by decide) (by decide)⟩

/-- C10: for a positive `int` modulus `m`, `hash(k, m)` lies in `[0, m)`; it is
the `unsigned long` remainder itself, so the narrowing to `unsigned int` and
the conversion to `int index` keep the value.  `hash` reads nothing but its
two arguments. -/
theorem hash_in_range (k : CString) (m : Nat) (hpos : 0 < m) (hint : m ≤ INT_MAX) :
    0 ≤ hash k m ∧ hash k m < m ∧ hash k m = hash_loop 5381 k % m ∧
    to_int_index (hash k m) = (hash k m : Int) := by
  have hlt : hash_loop 5381 k % m < m := Nat.mod_lt _ hpos
  have hmax : INT_MAX < 2 ^ UINT_BITS := by decide
  have heq : hash k m = hash_loop 5381 k % m := by
    unfold hash
    exact Nat.mod_eq_of_lt (by omega)
  refine ⟨Nat.zero_le _, heq ▸ hlt, heq, ?_⟩
  unfold to_int_index
  rw [if_pos (by omega)]

/-- The demo's index of `"line_1"` in its table of capacity 2. -/
theorem hash_in_range_witness :
    0 < 2 ∧ 2 ≤ INT_MAX ∧
    (0 ≤ hash line_1 2 ∧ hash line_1 2 < 2 ∧ hash line_1 2 = hash_loop 5381 line_1 % 2 ∧
      to_int_index (hash line_1 2) = (hash line_1 2 : Int)) :=
  ⟨by decide, by decide, hash_in_range line_1 2 (by decide) (by decide)⟩

/-- C11: for a key of non-zero bytes (each an unsigned 8-bit value) and a
positive `int` modulus `m`, `hash(key, m)` is `djb2(key) mod m`, where `djb2`
folds `acc := (acc * 33 + b) mod 2^64` from 5381; one pass of the code's
update on a byte `c` from `acc` is `(acc * 33 + c) mod 2^64`. -/
theorem hash_eq_djb2_mod (key : CString) (m : Nat)
    (hbytes : ∀ b ∈ key, 0 < b ∧ b < 256) (hpos : 0 < m) (hint : m ≤ INT_MAX) :
    hash key m = djb2 key % m ∧
    ∀ acc c, 0 < c → hash_loop acc [c] = (acc * 33 + c) % 2 ^ 64 := by
  constructor
  · rw [hash_eq_mod key hpos hint, hash_loop_eq_foldl key 5381 (fun b hb => (hbytes b hb).1.ne')]
    rfl
  · intro acc c hc
    rw [hash_loop_eq_foldl [c] acc (by simpa using hc.ne')]
    rfl

/-- The demo's key `"line_1"` and its capacity 2. -/
theorem hash_eq_djb2_mod_witness :
    (∀ b ∈ line_1, 0 < b ∧ b < 256) ∧ 0 < 2 ∧ 2 ≤ INT_MAX ∧
    (hash line_1 2 = djb2 line_1 % 2 ∧
      ∀ acc c, 0 < c → hash_loop acc [c] = (acc * 33 + c) % 2 ^ 64) :=
  ⟨by decide, by decide, by decide,
    hash_eq_djb2_mod line_1 2 (by decide) (by decide) (by decide)⟩

/-- C12: on a table with positive capacity whose doubled capacity fits in `int`,
`hash_table_resize` returns a table whose capacity is `2 * capacity` and whose
storage has that many slots. -/
theorem resize_doubles_capacity (ht : HashTable)
    (_hcap : 0 < ht.capacity) (hint : ht.capacity * 2 ≤ INT_MAX) :
    ∃ ht', hash_table_resize ht = some ht' ∧ ht'.capacity = 2 * ht.capacity ∧
      ht'.storage.length = 2 * ht.capacity := by
  obtain ⟨ht', hres⟩ := resize_defined hint
  obtain ⟨hc, hw⟩ := resize_capacity hres
  refine ⟨ht', hres, by omega, ?_⟩
  unfold well_formed at hw
  omega

/-- The demo's resize from capacity 2. -/
theorem resize_doubles_capacity_witness :
    0 < demo_table.capacity ∧ demo_table.capacity * 2 ≤ INT_MAX ∧
    ∃ ht', hash_table_resize demo_table = some ht' ∧ ht'.capacity = 2 * demo_table.capacity ∧
      ht'.storage.length = 2 * demo_table.capacity :=
  ⟨by decide, by decide, resize_doubles_capacity demo_table (by decide) (by decide)⟩

/-- C16: on a table with positive capacity, whatever its buckets hold,
`hash_table_retrieve(table, k)` right after `hash_table_insert(table, k, v)`
returns `v`. -/
theorem retrieve_insert_same_key (ht : HashTable) (k v : CString)
    (hcap : 0 < ht.capacity) (hwf : well_formed ht) :
    hash_table_retrieve (hash_table_insert ht k v) k = some v := by
  unfold hash_table_retrieve
  rw [insert_capacity, bucket_insert_self ht k v hcap hwf]
  exact retrieve_chain_insert _ k v

/-- The key `"b"`, second in the chain with value `"y"`, inserted again with `"z"`. -/
theorem retrieve_insert_same_key_witness :
    0 < table_ab.capacity ∧ well_formed table_ab ∧
    hash_table_retrieve table_ab str_b = some str_y ∧
    hash_table_retrieve (hash_table_insert table_ab str_b str_z) str_b = some str_z :=
  ⟨by decide, by decide, by decide,
    retrieve_insert_same_key table_ab str_b str_z (by decide) (by decide)⟩

/-- C20: on a table with positive capacity, `hash_table_insert(table, k, v)`
keeps `capacity` and the chain of every bucket other than
`hash(k, capacity)`, so a key that hashes to another bucket retrieves what it
retrieved before. -/
theorem insert_frame (ht : HashTable) (k v : CString)
    (_hcap : 0 < ht.capacity) (_hwf : well_formed ht) :
    (hash_table_insert ht k v).capacity = ht.capacity ∧
    (∀ j, j ≠ hash k ht.capacity → bucket (hash_table_insert ht k v) j = bucket ht j) ∧
    ∀ k2, hash k2 ht.capacity ≠ hash k ht.capacity →
      hash_table_retrieve (hash_table_insert ht k v) k2 = hash_table_retrieve ht k2 :=
  ⟨insert_capacity ht k v, fun _ hj => bucket_insert_of_ne ht k v (Ne.symm hj),
    fun k2 h => retrieve_insert_of_hash_ne ht k v k2 (Ne.symm h)⟩

/-- The demo's table, which holds `"line_1"` in bucket 1, on an insert of `"a"`
into bucket 0. -/
theorem insert_frame_witness :
    0 < demo_table.capacity ∧ well_formed demo_table ∧
    hash line_1 demo_table.capacity ≠ hash str_a demo_table.capacity ∧
    ((hash_table_insert demo_table str_a str_x).capacity = demo_table.capacity ∧
    (∀ j, j ≠ hash str_a demo_table.capacity →
      bucket (hash_table_insert demo_table str_a str_x) j = bucket demo_table j) ∧
    ∀ k2, hash k2 demo_table.capacity ≠ hash str_a demo_table.capacity →
      hash_table_retrieve (hash_table_insert demo_table str_a str_x) k2
        = hash_table_retrieve demo_table k2) :=
  ⟨by decide, by decide, by decide,
    insert_frame demo_table str_a str_x (by decide) (by decide)⟩

/-- C13, at the failing input: the bucket of the table of capacity 1 chains
`"a"` and `"b"`; the claim gives the chain `"a"` alone after
`hash_table_remove(table, "b")`, but the call unlinks and destroys the pair of
`"b"` and then reads it again, so it has no defined result. -/
theorem remove_chained_key_undefined :
    0 < table_ab.capacity ∧ well_formed table_ab ∧
    bucket table_ab (hash str_b table_ab.capacity)
      = [create_pair str_a str_x, create_pair str_b str_y] ∧
    (bucket table_ab (hash str_b table_ab.capacity)).filter (fun p => p.key ≠ str_b)
      = [create_pair str_a str_x] ∧
    hash_table_remove table_ab str_b = none := by
  decide

/-- C14, at the failing input: on the one-pair chain of `"a"`, the pass of the
loop of `hash_table_remove` that finds the match does not move `current_pair`
to the successor (`NULL`, which would end the loop): it leaves it on the pair
it destroyed, and the next pass examines that pair again, which is undefined. -/
theorem remove_loop_match_keeps_cursor :
    bucket table_a (hash str_a table_a.capacity) = [create_pair str_a str_x] ∧
    remove_step str_a { before := [], destroyed := false, rest := [create_pair str_a str_x] }
      = RemoveStep.again { before := [], destroyed := true, rest := [] } ∧
    remove_step str_a { before := [], destroyed := true, rest := [] } = RemoveStep.undefined ∧
    remove_loop str_a [] false (bucket table_a (hash str_a table_a.capacity)) = none := by
  decide

/-- C15 as stated fails: the bucket of the table of capacity 1 chains `"a"` and
`"b"`, the head's key `"a"` differs from `"b"`, and after
`hash_table_insert(table, "b", "z")` the key of the pair that followed the
head, `"b"`, is still retrievable. -/
theorem insert_other_head_counterexample :
    0 < table_ab.capacity ∧ well_formed table_ab ∧
    bucket table_ab (hash str_b table_ab.capacity)
      = create_pair str_a str_x :: [create_pair str_b str_y] ∧
    (create_pair str_a str_x).key ≠ str_b ∧
    bucket (hash_table_insert table_ab str_b str_z) (hash str_b table_ab.capacity)
      = [create_pair str_a str_x, create_pair str_b str_z] ∧
    ¬ (∀ p ∈ [create_pair str_b str_y],
        hash_table_retrieve (hash_table_insert table_ab str_b str_z) p.key = none) := by
  decide

/-- C15, amended: on a table with positive capacity whose pairs sit in the
bucket of their hash, when the head of bucket `hash(k, capacity)` has a key
other than `k`, after `hash_table_insert(table, k, v)` the chain of that bucket
is exactly the old head followed by the new pair, whatever followed the head
before; the key of a pair that followed the head is no longer retrievable
unless it is `k` or the head's key. -/
theorem insert_other_head_chain (ht : HashTable) (k v : CString)
    (hcap : 0 < ht.capacity) (hwf : well_formed ht) (hpl : placed ht)
    (head : LinkedPair) (rest : Chain)
    (hb : bucket ht (hash k ht.capacity) = head :: rest) (hk : head.key ≠ k) :
    bucket (hash_table_insert ht k v) (hash k ht.capacity) = [head, create_pair k v] ∧
    ∀ p ∈ rest, p.key ≠ k → p.key ≠ head.key →
      hash_table_retrieve (hash_table_insert ht k v) p.key = none := by
  have hchain := bucket_insert_other_head ht k v hcap hwf head rest hb hk
  refine ⟨hchain, ?_⟩
  intro p hp hpk hph
  have hidx : hash p.key ht.capacity = hash k ht.capacity :=
    hpl _ (hash_lt k hcap) p (hb ▸ List.mem_cons_of_mem _ hp)
  unfold hash_table_retrieve
  rw [insert_capacity, hidx, hchain]
  exact retrieve_loop_two_none _ _ _ (Ne.symm hph) (Ne.symm hpk)

/-- The chain `"a"`, `"b"` on an insert of `"c"`: afterwards `"b"` is not found. -/
theorem insert_other_head_chain_witness :
    0 < table_ab.capacity ∧ well_formed table_ab ∧ placed table_ab ∧
    bucket table_ab (hash str_c table_ab.capacity)
      = create_pair str_a str_x :: [create_pair str_b str_y] ∧
    (create_pair str_a str_x).key ≠ str_c ∧
    hash_table_retrieve table_ab str_b = some str_y ∧
    (bucket (hash_table_insert table_ab str_c str_z) (hash str_c table_ab.capacity)
      = [create_pair str_a str_x, create_pair str_c str_z] ∧
    ∀ p ∈ [create_pair str_b str_y], p.key ≠ str_c → p.key ≠ (create_pair str_a str_x).key →
      hash_table_retrieve (hash_table_insert table_ab str_c str_z) p.key = none) :=
  ⟨by decide, by decide, by decide, by decide, by decide, by decide,
    insert_other_head_chain table_ab str_c str_z (by decide) (by decide) (by decide)
      (create_pair str_a str_x) [create_pair str_b str_y] (by decide) (by decide)⟩

/-- C18: on a table with positive capacity, when the head of bucket
`hash(k, capacity)` has key `k`, after `hash_table_insert(table, k, v)` the
chain of that bucket is the single new pair; a key `k2` other than `k` that was
retrievable from that chain before is not found afterwards. -/
theorem insert_same_head_chain (ht : HashTable) (k v : CString)
    (hcap : 0 < ht.capacity) (hwf : well_formed ht)
    (head : LinkedPair) (rest : Chain)
    (hb : bucket ht (hash k ht.capacity) = head :: rest) (hk : head.key = k) :
    bucket (hash_table_insert ht k v) (hash k ht.capacity) = [create_pair k v] ∧
    ∀ k2 v2, k2 ≠ k → hash k2 ht.capacity = hash k ht.capacity →
      hash_table_retrieve ht k2 = some v2 →
      hash_table_retrieve (hash_table_insert ht k v) k2 = none := by
  have hchain := bucket_insert_same_head ht k v hcap hwf head rest hb hk
  refine ⟨hchain, ?_⟩
  intro k2 v2 hne hidx _
  unfold hash_table_retrieve
  rw [insert_capacity, hidx, hchain]
  simp [retrieve_loop, create_pair, Ne.symm hne]

/-- Capacity 1, insert `"a"`, insert `"b"`, insert `"a"` again, retrieve `"b"`. -/
theorem insert_same_head_chain_witness :
    0 < table_ab.capacity ∧ well_formed table_ab ∧
    bucket table_ab (hash str_a table_ab.capacity)
      = create_pair str_a str_x :: [create_pair str_b str_y] ∧
    (create_pair str_a str_x).key = str_a ∧
    hash_table_retrieve table_ab str_b = some str_y ∧
    hash_table_retrieve (hash_table_insert table_ab str_a str_z) str_b = none ∧
    (bucket (hash_table_insert table_ab str_a str_z) (hash str_a table_ab.capacity)
      = [create_pair str_a str_z] ∧
    ∀ k2 v2, k2 ≠ str_a → hash k2 table_ab.capacity = hash str_a table_ab.capacity →
      hash_table_retrieve table_ab k2 = some v2 →
      hash_table_retrieve (hash_table_insert table_ab str_a str_z) k2 = none) :=
  ⟨by decide, by decide, by decide, by decide, by decide, by decide,
    insert_same_head_chain table_ab str_a str_z (by decide) (by decide)
      (create_pair str_a str_x) [create_pair str_b str_y] (by decide) (by decide)⟩

/-- C17: for the table left by any sequence of calls that starts from
`create_hash_table(c)`, `c > 0` (inserts and resizes; a remove that returns
leaves the table as it was), with the doubled capacity within `int`:
`hash_table_resize` returns a table, and every key retrieves from it what it
retrieved before. -/
theorem resize_keeps_every_key (c : Nat) (ops : List Op) (ht : HashTable) (hc : 0 < c)
    (hrun : run_ops (create_hash_table c) ops = some ht)
    (hint : ht.capacity * 2 ≤ INT_MAX) :
    ∃ ht', hash_table_resize ht = some ht' ∧
      ∀ k, hash_table_retrieve ht' k = hash_table_retrieve ht k := by
  obtain ⟨ht', hres⟩ := resize_defined hint
  exact ⟨ht', hres,
    resize_retrieve_eq (run_ops_reach_inv ops (create_reach_inv hc) hrun) hint hres⟩

/-- The table of capacity 1 whose bucket chains `"a"` and `"c"`, two keys that
share a bucket after the resize too. -/
theorem resize_keeps_every_key_witness :
    0 < 1 ∧ run_ops (create_hash_table 1) ops_ac = some table_ac ∧
    table_ac.capacity * 2 ≤ INT_MAX ∧
    bucket table_ac 0 = [create_pair str_a str_x, create_pair str_c str_z] ∧
    ∃ ht', hash_table_resize table_ac = some ht' ∧
      ∀ k, hash_table_retrieve ht' k = hash_table_retrieve table_ac k :=
  ⟨by decide, by decide, by decide, by decide,
    resize_keeps_every_key 1 ops_ac table_ac (by decide) (by decide) (by decide)⟩

/-- C19: in the table left by any sequence of calls that starts from
`create_hash_table(c)`, `c > 0` (inserts and resizes; a remove that returns
leaves the table as it was), every bucket chain holds at most 2 pairs, and
the table holds at most `2 * capacity` pairs. -/
theorem chain_length_invariant (c : Nat) (ops : List Op) (ht : HashTable) (hc : 0 < c)
    (hrun : run_ops (create_hash_table c) ops = some ht) :
    (∀ i, i < ht.capacity → (bucket ht i).length ≤ 2) ∧ pair_count ht ≤ 2 * ht.capacity := by
  have h := run_ops_reach_inv ops (create_reach_inv hc) hrun
  exact ⟨h.2, pair_count_le h.1.2.1 h.2⟩

/-- Three colliding inserts into the fresh table of capacity 1 leave two pairs. -/
theorem chain_length_invariant_witness :
    0 < 1 ∧
    run_ops (create_hash_table 1)
      [Op.insert str_a str_x, Op.insert str_b str_y, Op.insert str_c str_z]
      = some (insert3 (create_hash_table 1) str_a str_x str_b str_y str_c str_z) ∧
    pair_count (insert3 (create_hash_table 1) str_a str_x str_b str_y str_c str_z) = 2 ∧
    ((∀ i, i < (insert3 (create_hash_table 1) str_a str_x str_b str_y str_c str_z).capacity →
      (bucket (insert3 (create_hash_table 1) str_a str_x str_b str_y str_c str_z) i).length ≤ 2) ∧
    pair_count (insert3 (create_hash_table 1) str_a str_x str_b str_y str_c str_z)
      ≤ 2 * (insert3 (create_hash_table 1) str_a str_x str_b str_y str_c str_z).capacity) :=
  ⟨by decide, by decide, by decide,
    chain_length_invariant 1
      [Op.insert str_a str_x, Op.insert str_b str_y, Op.insert str_c str_z]
      (insert3 (create_hash_table 1) str_a str_x str_b str_y str_c str_z)
      (by decide) (by decide)⟩

end HashTables
